import Mathlib

/-!
A shallow embedding of the PageRank core of `src/pagerank.py` (functions
`transition_model`, `sample_pagerank`, `iterate_pagerank`) and proofs of the
specification claims about it.

Modelling conventions:
* A Python dict is embedded as an association list; `corpus` becomes
  `List (String × List String)` (each value `corpus[p]` is a Python set of
  strings, embedded as a duplicate-free list).
* Python floats are embedded as exact rationals `ℚ`; the tolerances the spec
  states (1e-9, 1e-6) are then implied by exact equalities where those hold.
* A failing operation (Python `KeyError` on `corpus[page]`, `IndexError` of
  `random.choice` on an empty list) is embedded as `Option.none`, so a
  function that can fail returns `Option _`.
* The process-wide random generator read by `random.choice` and
  `random.choices` is embedded as an oracle stream `σ : ℕ → ℕ`; a random
  selection from a population list returns the element at an oracle-chosen
  index.  `random.choices`' weights influence only which element the real
  generator picks, never the set of possible results, so the oracle view is
  the standard abstraction for the membership and counting claims proved here.
* The unbounded `while not converged` loop of `iterate_pagerank` is embedded
  with explicit fuel; termination claims become statements that some fuel
  suffices.
-/

namespace PageRank

/-- A corpus: Python dict mapping page name to the set of pages it links to. -/
abbrev Corpus : Type := List (String × List String)

/-- Association-list lookup, embedding a Python dict subscript `m[k]`:
`none` is the `KeyError` case. -/
def lookup {β : Type} (k : String) : List (String × β) → Option β
  | [] => none
  | (a, b) :: t => if k = a then some b else lookup k t

/-- The key list of a dict, `list(m.keys())` (dicts keep insertion order). -/
def keysOf {β : Type} (l : List (String × β)) : List String := l.map Prod.fst

/-- `corpus[parent]` for a `parent` known to be a corpus key (the default `[]`
branch is never reached at call sites, which always pass keys). -/
def linksOf (c : Corpus) (p : String) : List String := (lookup p c).getD []

/-- Embedding of `transition_model(corpus, page, damping_factor)`
(src/pagerank.py lines 53-75).  `corpus[page]` first (KeyError when `page` is
not a key); then one entry per corpus key, with `linked_bonus` assigned in the
source's order: start at 0, overwrite with `damping_factor/len(pages)` when the
key is linked, overwrite with `damping_factor/len(keys)` when `pages` is empty. -/
def transition_model (c : Corpus) (page : String) (damping_factor : ℚ) :
    Option (List (String × ℚ)) :=
  match lookup page c with
  | none => none
  | some pages =>
    let keys := keysOf c
    some <| keys.map fun key =>
      let linked_bonus : ℚ := 0
      let linked_bonus : ℚ :=
        if key ∈ pages then damping_factor / pages.length else linked_bonus
      let linked_bonus : ℚ :=
        if pages.length = 0 then damping_factor / keys.length else linked_bonus
      (key, (1 - damping_factor) / keys.length + linked_bonus)

/-- Random selection of one element of a population list, the oracle view of
`random.choice(l)` and of `random.choices(l, weights, k=1).pop()`: the oracle
value `k` picks the index; an empty population fails (`none`). -/
def pick {α : Type} (l : List α) (k : ℕ) : Option α := l[k % l.length]?

/-- The sampling loop of `sample_pagerank` (src/pagerank.py lines 89-99):
starting from `cur`, perform `steps` further transitions, each drawn from
`transition_model`'s distribution by the oracle; returns the full visit list
(`pageranks_raw`), `cur` included, so its length is `steps + 1`. -/
def walkFrom (c : Corpus) (damping_factor : ℚ) (σ : ℕ → ℕ) :
    ℕ → String → Option (List String)
  | 0, cur => some [cur]
  | steps + 1, cur => do
    let prob_dis ← transition_model c cur damping_factor
    let nxt ← pick (keysOf prob_dis) (σ steps)
    let rest ← walkFrom c damping_factor σ steps nxt
    return cur :: rest

/-- Embedding of `sample_pagerank(corpus, damping_factor, n)`
(src/pagerank.py lines 78-104): uniform random start page, `n - 1` sampled
transitions, then for each corpus key the visit count divided by `n`. -/
def sample_pagerank (c : Corpus) (damping_factor : ℚ) (n : ℕ) (σ : ℕ → ℕ) :
    Option (List (String × ℚ)) := do
  let start ← pick (keysOf c) (σ 0)
  let pageranks_raw ← walkFrom c damping_factor σ (n - 1) start
  return (keysOf c).map fun key => (key, (pageranks_raw.count key : ℚ) / n)

/-- Reading a page's value out of a distribution dict,
`previous_prob_dis[parent]` / `prob_dis[page]`: every distribution built by
`iterate_pagerank` has exactly the corpus keys as keys and is only read at
corpus keys, so the `KeyError` default 0 is never reached. -/
def distLookup (r : List (String × ℚ)) (p : String) : ℚ := (lookup p r).getD 0

/-- One parent's addition to `partial_prob` in `iterate_pagerank`'s inner loop
(src/pagerank.py lines 130-133): `previous_prob_dis[parent]/len(corpus[parent])`
when `parent` links to `page`, else `1/len(pages)` when `parent` is dangling,
else nothing.  `prev` is the previous pass's distribution as a function. -/
def contribution (c : Corpus) (prev : String → ℚ) (page parent : String) : ℚ :=
  if page ∈ linksOf c parent then prev parent / (linksOf c parent).length
  else if (linksOf c parent).length = 0 then 1 / (keysOf c).length
  else 0

/-- The accumulated `partial_prob` for `page`: the inner loop runs over the
set `set(pages).difference(set([page]))`, i.e. the distinct corpus keys minus
`page` (the summation order is immaterial in `ℚ`). -/
def contribSum (c : Corpus) (prev : String → ℚ) (page : String) : ℚ :=
  (((keysOf c).dedup.filter fun q => q ≠ page).map (contribution c prev page)).sum

/-- The synchronous update of one page from the previous pass's values
(src/pagerank.py line 135). -/
def nextVal (c : Corpus) (damping_factor : ℚ) (prev : String → ℚ)
    (page : String) : ℚ :=
  (1 - damping_factor) / (keysOf c).length + damping_factor * contribSum c prev page

/-- One full pass over `prob_dis`: every page updated from the previous pass's
distribution (the loop overwrites `prob_dis[page]` for every corpus key while
reading only `previous_prob_dis`). -/
def nextDist (c : Corpus) (damping_factor : ℚ) (r : List (String × ℚ)) :
    List (String × ℚ) :=
  (keysOf c).map fun page => (page, nextVal c damping_factor (distLookup r) page)

/-- The convergence test after a pass (src/pagerank.py lines 137-140):
no page's absolute change may exceed 0.001. -/
def convergedAt (c : Corpus) (prev next : List (String × ℚ)) : Bool :=
  (keysOf c).all fun page =>
    decide (|distLookup prev page - distLookup next page| ≤ 1 / 1000)

/-- The `while not(converged)` loop of `iterate_pagerank`, with explicit fuel:
each unit of fuel is one pass; when a pass leaves every page within 0.001 of
its previous value the new distribution is returned. -/
def iterAux (c : Corpus) (damping_factor : ℚ) :
    ℕ → List (String × ℚ) → Option (List (String × ℚ))
  | 0, _ => none
  | fuel + 1, prev =>
    let next := nextDist c damping_factor prev
    if convergedAt c prev next then some next
    else iterAux c damping_factor fuel next

/-- The initial distribution of `iterate_pagerank`: every page at
`1/len(pages)` (src/pagerank.py lines 119-120). -/
def initDist (c : Corpus) : List (String × ℚ) :=
  (keysOf c).map fun page => (page, 1 / (keysOf c).length)

/-- Embedding of `iterate_pagerank(corpus, damping_factor)`
(src/pagerank.py lines 107-142): start every page at `1/len(pages)`, iterate
passes until converged (fuel bounds the pass count), return the dict. -/
def iterate_pagerank (c : Corpus) (damping_factor : ℚ) (fuel : ℕ) :
    Option (List (String × ℚ)) :=
  iterAux c damping_factor fuel (initDist c)

/-- The corpus invariant of spec §3: keys are distinct (a dict), each link set
is duplicate-free (a Python set) and mentions only corpus keys. -/
def WellFormed (c : Corpus) : Prop :=
  (keysOf c).Nodup ∧ ∀ pr ∈ c, pr.2.Nodup ∧ pr.2 ⊆ keysOf c

instance : DecidablePred WellFormed := fun c => by
  unfold WellFormed; infer_instance

/-! ### Helper lemmas about the embedded dict operations -/

theorem lookup_eq_none_iff {β : Type} (k : String) :
    ∀ l : List (String × β), lookup k l = none ↔ k ∉ keysOf l := by
  intro l
  induction l with
  | nil => simp [lookup, keysOf]
  | cons hd tl ih =>
    by_cases h : k = hd.1
    · simp [lookup, keysOf, h]
    · simpa [lookup, keysOf, h] using ih

theorem lookup_mem {β : Type} {k : String} {b : β} :
    ∀ {l : List (String × β)}, lookup k l = some b → (k, b) ∈ l := by
  intro l
  induction l with
  | nil => simp [lookup]
  | cons hd tl ih =>
    obtain ⟨a, v⟩ := hd
    by_cases h : k = a
    · simp only [lookup, if_pos h, Option.some.injEq]
      rintro rfl
      simp [h]
    · intro hl
      rw [lookup, if_neg h] at hl
      exact List.mem_cons_of_mem _ (ih hl)

theorem lookup_map_self {β : Type} (v : String → β) {q : String} :
    ∀ keys : List String, q ∈ keys →
      lookup q (keys.map fun k => (k, v k)) = some (v q) := by
  intro keys
  induction keys with
  | nil => simp
  | cons hd tl ih =>
    intro hq
    by_cases h : q = hd
    · subst h; simp [lookup]
    · rcases List.mem_cons.mp hq with h2 | h2
      · exact absurd h2 h
      · simpa [lookup, h] using ih h2

theorem keysOf_map_self {β : Type} (keys : List String) (v : String → β) :
    keysOf (keys.map fun k => (k, v k)) = keys := by
  induction keys with
  | nil => rfl
  | cons hd tl ih => simp only [keysOf, List.map_cons] at ih ⊢; simp [ih]

theorem snd_map_self {β : Type} (keys : List String) (v : String → β) :
    (keys.map fun k => (k, v k)).map Prod.snd = keys.map v := by
  induction keys with
  | nil => rfl
  | cons hd tl ih => simp [ih]

theorem mem_keysOf_of_lookup {β : Type} {k : String} {b : β}
    {l : List (String × β)} (h : lookup k l = some b) : k ∈ keysOf l := by
  by_contra hk
  rw [← lookup_eq_none_iff] at hk
  simp [hk] at h

theorem exists_lookup_of_mem_keysOf {β : Type} {k : String}
    {l : List (String × β)} (h : k ∈ keysOf l) : ∃ b, lookup k l = some b := by
  cases hl : lookup k l with
  | none => exact absurd ((lookup_eq_none_iff k l).mp hl) (not_not.mpr h)
  | some b => exact ⟨b, rfl⟩

theorem toFinset_dedup_filter_ne (keys : List String) (page : String) :
    (keys.dedup.filter fun q => q ≠ page).toFinset = keys.toFinset.erase page := by
  ext q
  simp [List.mem_dedup, Finset.mem_erase, and_comm]

/-- The value `transition_model` gives each corpus key, once the `corpus[page]`
lookup has succeeded. -/
theorem transition_model_eq (c : Corpus) (page : String) (d : ℚ)
    {pages : List String} (h : lookup page c = some pages) :
    transition_model c page d = some ((keysOf c).map fun key =>
      (key, (1 - d) / (keysOf c).length +
        (if pages.length = 0 then d / (keysOf c).length
         else if key ∈ pages then d / pages.length else 0))) := by
  simp [transition_model, h]

/-! ### Claims about `transition_model` -/

/-- Claim C4 (counterexample): the claim says a damping factor outside (0,1) fails
with an InvalidInput error, but `transition_model` never inspects the damping
factor: at `d = 2` it happily returns a distribution. -/
theorem transition_model_skips_damping_check :
    ¬ (0 < (2 : ℚ) ∧ (2 : ℚ) < 1) ∧
    PageRank.transition_model [("A", [])] "A" 2 = some [("A", 1)] := by
  constructor
  · norm_num
  · simp [PageRank.transition_model, PageRank.lookup, PageRank.keysOf]

theorem transition_model_eq_none_iff (c : Corpus) (page : String) (d : ℚ) :
    transition_model c page d = none ↔ page ∉ keysOf c := by
  cases hl : lookup page c with
  | none =>
    have hmem := (lookup_eq_none_iff page c).mp hl
    simp [transition_model, hl, hmem]
  | some pages =>
    have hmem := mem_keysOf_of_lookup hl
    simp [transition_model, hl, hmem]

/-- Claim C4 (amended): `transition_model` fails exactly when `page` is not a key of
the corpus (the `KeyError` of `corpus[page]`, raised before any probability is
computed; an empty corpus has no keys, so it is covered).  A damping factor
outside (0,1) is not detected, and for a corpus key there is no error path. -/
theorem transition_model_error_iff (c : Corpus) (page : String) (d : ℚ) :
    transition_model c page d = none ↔ page ∉ keysOf c :=
  transition_model_eq_none_iff c page d

/-- Claim C5: on a well-formed corpus, for a corpus key and any damping factor, the
returned values sum to exactly 1 (hence within 1e-9), and when the page has
`L > 0` outbound links every corpus page `q` receives
`(1-d)/N + (d/L if q is linked else 0)`. -/
theorem transition_model_sum_one_and_formula (c : Corpus) (page : String)
    (d : ℚ) (hwf : WellFormed c) (hpage : page ∈ keysOf c)
    (_h0 : 0 < d) (_h1 : d < 1) :
    ∃ pages r, lookup page c = some pages ∧
      transition_model c page d = some r ∧
      (r.map Prod.snd).sum = 1 ∧
      (pages.length ≠ 0 → ∀ q ∈ keysOf c,
        lookup q r = some ((1 - d) / (keysOf c).length +
          if q ∈ pages then d / pages.length else 0)) := by
  obtain ⟨pages, hp⟩ := exists_lookup_of_mem_keysOf hpage
  refine ⟨pages, _, hp, transition_model_eq c page d hp, ?_, ?_⟩
  · have hknd : (keysOf c).Nodup := hwf.1
    have hlen : (keysOf c).length ≠ 0 :=
      List.length_pos.mpr (List.ne_nil_of_mem hpage) |>.ne'
    have hN0 : ((keysOf c).length : ℚ) ≠ 0 := Nat.cast_ne_zero.mpr hlen
    rw [snd_map_self, ← List.sum_toFinset _ hknd, Finset.sum_add_distrib,
      Finset.sum_const, List.toFinset_card_of_nodup hknd]
    by_cases hL : pages.length = 0
    · simp only [if_pos hL, Finset.sum_const, List.toFinset_card_of_nodup hknd,
        nsmul_eq_mul]
      field_simp
    · have hpr := hwf.2 (page, pages) (lookup_mem hp)
      have hpnd : pages.Nodup := hpr.1
      have hsub : pages.toFinset ⊆ (keysOf c).toFinset := fun x hx =>
        List.mem_toFinset.mpr (hpr.2 (List.mem_toFinset.mp hx))
      have hL0 : ((pages.length : ℚ)) ≠ 0 := Nat.cast_ne_zero.mpr hL
      simp only [if_neg hL]
      simp only [← List.mem_toFinset]
      rw [Finset.sum_ite_mem, Finset.inter_eq_right.mpr hsub,
        Finset.sum_const, List.toFinset_card_of_nodup hpnd, nsmul_eq_mul,
        nsmul_eq_mul]
      field_simp
  · intro hL q hq
    rw [lookup_map_self _ _ hq, if_neg hL]

/-- Claim C6: for a dangling corpus key (empty outbound set), `transition_model`
returns the uniform distribution: every corpus page gets exactly `1/N`
(hence within 1e-9). -/
theorem transition_model_dangling_uniform (c : Corpus) (page : String) (d : ℚ)
    (_hpage : page ∈ keysOf c) (hdang : lookup page c = some [])
    (_h0 : 0 < d) (_h1 : d < 1) :
    ∃ r, transition_model c page d = some r ∧
      (∀ q ∈ keysOf c, lookup q r = some ((1 : ℚ) / ((keysOf c).length : ℚ))) ∧
      ∀ pr ∈ r, pr.2 = 1 / ((keysOf c).length : ℚ) := by
  have h := transition_model_eq c page d hdang
  have harith : (1 - d) / ((keysOf c).length : ℚ) + d / (keysOf c).length =
      1 / (keysOf c).length := by
    rw [div_add_div_same]
    norm_num
  simp only [List.length_nil, eq_self_iff_true, if_true, harith] at h
  refine ⟨_, h, fun q hq => lookup_map_self _ _ hq, ?_⟩
  intro pr hpr
  obtain ⟨k, hk, rfl⟩ := List.mem_map.mp hpr
  rfl

/-! ### Claims about `iterate_pagerank` -/

/-- Claim C1 (code bug): in `iterate_pagerank`'s first pass on the corpus
`{A: {}, B: {A}}` (where `PR_prev` is uniform, 1/2 each), the dangling page A
contributes `1/len(pages)` = 1/2 to B's partial sum, not
`PR_prev(A)/N` = 1/4 as the spec's update rule requires: the code adds the
constant `1/N` instead of the dangling page's rank mass divided by N. -/
theorem dangling_contribution_ignores_rank :
    PageRank.contribution [("A", []), ("B", ["A"])]
        (PageRank.distLookup (PageRank.initDist [("A", []), ("B", ["A"])]))
        "B" "A" = 1 / 2 ∧
    PageRank.distLookup (PageRank.initDist [("A", []), ("B", ["A"])]) "A" /
        (PageRank.keysOf [("A", []), ("B", ["A"])]).length = 1 / 4 ∧
    (1 : ℚ) / 2 ≠ 1 / 4 := by
  refine ⟨?_, ?_, by norm_num⟩
  · simp [PageRank.contribution, PageRank.distLookup, PageRank.initDist,
      PageRank.linksOf, PageRank.lookup, PageRank.keysOf]
  · simp [PageRank.distLookup, PageRank.initDist, PageRank.lookup,
      PageRank.keysOf]
    norm_num

theorem keysOf_nextDist (c : Corpus) (d : ℚ) (r : List (String × ℚ)) :
    keysOf (nextDist c d r) = keysOf c :=
  keysOf_map_self _ _

theorem iterAux_some_keys (c : Corpus) (d : ℚ) :
    ∀ (fuel : ℕ) (prev r : List (String × ℚ)),
      iterAux c d fuel prev = some r → keysOf r = keysOf c := by
  intro fuel
  induction fuel with
  | zero => intro prev r h; exact absurd h (by simp [iterAux])
  | succ fuel ih =>
    intro prev r h
    rw [iterAux] at h
    by_cases hc : convergedAt c prev (nextDist c d prev)
    · rw [if_pos hc, Option.some.injEq] at h
      rw [← h]
      exact keysOf_nextDist c d prev
    · rw [if_neg hc] at h
      exact ih _ _ h

/-- Claim C10: every distribution any of the three core functions returns is keyed
by exactly the corpus's keys, in order: every corpus page receives a value and
no other key appears. -/
theorem outputs_keyed_by_corpus :
    (∀ (c : Corpus) (page : String) (d : ℚ) (r : List (String × ℚ)),
        PageRank.transition_model c page d = some r → keysOf r = keysOf c) ∧
    (∀ (c : Corpus) (d : ℚ) (n : ℕ) (σ : ℕ → ℕ) (r : List (String × ℚ)),
        PageRank.sample_pagerank c d n σ = some r → keysOf r = keysOf c) ∧
    (∀ (c : Corpus) (d : ℚ) (fuel : ℕ) (r : List (String × ℚ)),
        PageRank.iterate_pagerank c d fuel = some r → keysOf r = keysOf c) := by
  refine ⟨?_, ?_, ?_⟩
  · intro c page d r h
    cases hl : lookup page c with
    | none => simp [transition_model, hl] at h
    | some pages =>
      rw [transition_model_eq c page d hl, Option.some.injEq] at h
      rw [← h, keysOf_map_self]
  · intro c d n σ r h
    cases hp : pick (keysOf c) (σ 0) with
    | none => simp [sample_pagerank, hp] at h
    | some start =>
      cases hw : walkFrom c d σ (n - 1) start with
      | none => simp [sample_pagerank, hp, hw] at h
      | some raw =>
        simp only [sample_pagerank, hp, hw, Option.bind_some, Option.some_bind,
          Option.some.injEq, bind, pure] at h
        rw [← h, keysOf_map_self]
  · intro c d fuel r h
    exact iterAux_some_keys c d fuel (initDist c) r h

/-- Claim C8: on the symmetric 2-cycle `{A: {B}, B: {A}}` with `d = 0.85 = 17/20`,
the transition model at A is `{A: 0.075, B: 0.925}` (3/40 and 37/40), and the
iterative estimator converges (already after one pass) to exactly
`{A: 0.5, B: 0.5}`, certainly within 0.001 of 0.5. -/
theorem two_cycle_values :
    PageRank.transition_model [("A", ["B"]), ("B", ["A"])] "A" (17 / 20) =
      some [("A", 3 / 40), ("B", 37 / 40)] ∧
    PageRank.iterate_pagerank [("A", ["B"]), ("B", ["A"])] (17 / 20) 1 =
      some [("A", 1 / 2), ("B", 1 / 2)] ∧
    |(1 : ℚ) / 2 - 1 / 2| ≤ 1 / 1000 := by
  refine ⟨?_, ?_, by norm_num⟩
  · simp [PageRank.transition_model, PageRank.lookup, PageRank.keysOf]
    norm_num
  · show iterAux _ _ 1 _ = _
    simp [nextDist, nextVal, contribSum, contribution, keysOf, linksOf,
      lookup, distLookup, initDist, convergedAt, iterAux]
    norm_num

/-- On the one-page dangling corpus `{A: {}}` the transition model sends the
surfer back to A with probability 1, whatever the damping factor's value does
to the two summands. -/
theorem transition_model_singleton (d : ℚ) :
    PageRank.transition_model [("A", [])] "A" d = some [("A", 1)] := by
  simp [PageRank.transition_model, PageRank.lookup, PageRank.keysOf]

theorem walkFrom_singleton (d : ℚ) (σ : ℕ → ℕ) :
    ∀ steps : ℕ, walkFrom [("A", [])] d σ steps "A" =
      some (List.replicate (steps + 1) "A") := by
  intro steps
  induction steps with
  | zero => rfl
  | succ steps ih =>
    rw [walkFrom, transition_model_singleton d]
    simp only [Option.bind_some, Option.some_bind, bind, pure]
    have hpick : pick (keysOf [("A", (1 : ℚ))]) (σ steps) = some "A" := by
      simp [pick, keysOf, Nat.mod_one]
    rw [hpick]
    simp only [Option.some_bind, ih, Option.bind_some]
    rfl

/-- Claim C2 (code bug): on the singleton corpus `{A: {}}` with `d = 0.85`, the
sampling estimator does return `{A: 1.0}` for every oracle and every `n ≥ 1`,
but the iterative estimator returns `{A: 0.15}` (= `(1-d)/N` with no
contribution at all, since the update sums over pages other than A), not
`{A: 1.0}` as the spec claims. -/
theorem singleton_corpus_iterate_not_one :
    PageRank.iterate_pagerank [("A", [])] (17 / 20) 2 = some [("A", 3 / 20)] ∧
    (∀ (σ : ℕ → ℕ) (n : ℕ), 1 ≤ n →
      PageRank.sample_pagerank [("A", [])] (17 / 20) n σ = some [("A", 1)]) ∧
    (3 : ℚ) / 20 ≠ 1 := by
  refine ⟨?_, ?_, by norm_num⟩
  · show iterAux _ _ 2 _ = _
    simp [nextDist, nextVal, contribSum, contribution, keysOf, linksOf,
      lookup, distLookup, initDist, convergedAt, iterAux]
    norm_num
  · intro σ n hn
    have hstart : pick (keysOf [("A", ([] : List String))]) (σ 0) = some "A" := by
      simp [pick, keysOf, Nat.mod_one]
    have hwalk := walkFrom_singleton (17 / 20) σ (n - 1)
    rw [Nat.sub_add_cancel hn] at hwalk
    simp only [sample_pagerank, hstart, hwalk, Option.some_bind, bind, pure,
      Option.bind_some]
    have hc : (List.replicate n "A").count "A" = n := by
      simp [List.count_replicate]
    have hn0 : ((n : ℚ)) ≠ 0 := Nat.cast_ne_zero.mpr (Nat.one_le_iff_ne_zero.mp hn)
    simp [keysOf, hc, div_self hn0]

/-- Claim C3 (code bug): on the well-formed corpus `{A: {}, B: {}, C: {A}}` with
`d = 0.85`, the iterative estimator converges (pass 3) to
`{A: 343/400, B: 1/3, C: 37/60}`, whose values sum to 723/400 = 1.8075 —
not 1 within 1e-6.  The dangling pages' constant `1/N` contributions inflate
the total, contradicting the function's own docstring ("All PageRank values
should sum to 1"). -/
theorem iterate_sum_not_one :
    PageRank.iterate_pagerank [("A", []), ("B", []), ("C", ["A"])] (17 / 20) 4 =
      some [("A", 343 / 400), ("B", 1 / 3), ("C", 37 / 60)] ∧
    ([("A", (343 : ℚ) / 400), ("B", 1 / 3), ("C", 37 / 60)].map Prod.snd).sum =
      723 / 400 ∧
    ¬ |(723 : ℚ) / 400 - 1| ≤ 1 / 1000000 := by
  refine ⟨?_, by norm_num, ?_⟩
  · show iterAux _ _ 4 _ = _
    simp [nextDist, nextVal, contribSum, contribution, keysOf, linksOf,
      lookup, distLookup, initDist, convergedAt, iterAux]
    norm_num [abs_of_nonneg]
  · rw [abs_of_nonneg (by norm_num)]
    norm_num

/-! ### Claims about `sample_pagerank` -/

theorem pick_mem (l : List String) (k : ℕ) (hne : l ≠ []) :
    ∃ a, pick l k = some a ∧ a ∈ l := by
  have hlen : 0 < l.length := List.length_pos.mpr hne
  have hlt : k % l.length < l.length := Nat.mod_lt _ hlen
  exact ⟨l[k % l.length], by simp [pick, List.getElem?_eq_getElem hlt],
    List.getElem_mem hlt⟩

theorem transition_model_keys {c : Corpus} {page : String} {d : ℚ}
    {r : List (String × ℚ)} (h : transition_model c page d = some r) :
    keysOf r = keysOf c := by
  cases hl : lookup page c with
  | none => simp [transition_model, hl] at h
  | some pages =>
    rw [transition_model_eq c page d hl, Option.some.injEq] at h
    rw [← h, keysOf_map_self]

theorem walkFrom_spec (c : Corpus) (d : ℚ) (σ : ℕ → ℕ)
    (hne : keysOf c ≠ []) :
    ∀ (steps : ℕ) (cur : String), cur ∈ keysOf c →
      ∃ visits, walkFrom c d σ steps cur = some visits ∧
        visits.length = steps + 1 ∧ ∀ v ∈ visits, v ∈ keysOf c := by
  intro steps
  induction steps with
  | zero =>
    intro cur hcur
    exact ⟨[cur], rfl, rfl, by simpa using hcur⟩
  | succ steps ih =>
    intro cur hcur
    cases htm : transition_model c cur d with
    | none =>
      rw [transition_model_eq_none_iff] at htm
      exact absurd hcur htm
    | some r =>
      have hkr : keysOf r = keysOf c := transition_model_keys htm
      have hker : keysOf r ≠ [] := by rw [hkr]; exact hne
      obtain ⟨nxt, hpick, hmem⟩ := pick_mem (keysOf r) (σ steps) hker
      have hnxt : nxt ∈ keysOf c := hkr ▸ hmem
      obtain ⟨rest, hrest, hlen, hall⟩ := ih nxt hnxt
      refine ⟨cur :: rest, ?_, by simp [hlen], ?_⟩
      · rw [walkFrom, htm]
        simp only [Option.some_bind, bind, pure, hpick, hrest, Option.bind_some]
      · intro v hv
        rcases List.mem_cons.mp hv with rfl | hv
        · exact hcur
        · exact hall v hv

theorem list_sum_div (l : List String) (f : String → ℚ) (x : ℚ) :
    (l.map fun k => f k / x).sum = (l.map f).sum / x := by
  induction l with
  | nil => simp
  | cons hd tl ih => simp [ih, add_div]

theorem sum_counts (keys : List String) (hk : keys.Nodup)
    (visits : List String) (hall : ∀ v ∈ visits, v ∈ keys) :
    (keys.map fun key => ((visits.count key : ℚ))).sum = (visits.length : ℚ) := by
  rw [← List.sum_toFinset _ hk]
  have hsub : visits.toFinset ⊆ keys.toFinset := fun x hx =>
    List.mem_toFinset.mpr (hall x (List.mem_toFinset.mp hx))
  have hzero : ∀ x ∈ keys.toFinset, x ∉ visits.toFinset →
      ((visits.count x : ℚ)) = 0 := by
    intro x _ hx
    have : x ∉ visits := fun hmem => hx (List.mem_toFinset.mpr hmem)
    simp [List.count_eq_zero_of_not_mem this]
  calc keys.toFinset.sum (fun key => ((visits.count key : ℚ)))
      = visits.toFinset.sum (fun key => ((visits.count key : ℚ))) :=
        (Finset.sum_subset hsub hzero).symm
    _ = ((visits.toFinset.sum fun key => visits.count key : ℕ) : ℚ) := by
        rw [Nat.cast_sum]
    _ = (visits.length : ℚ) := by rw [List.sum_toFinset_count_eq_length]

/-- Claim C7: for a well-formed non-empty corpus, any damping factor in (0,1), any
oracle and any `n ≥ 1`: the sampler's `n` recorded visits are all corpus keys,
every page's visit count lies in `[0, n]`, and the returned values
(count divided by `n`) sum to exactly 1. -/
theorem sample_pagerank_counts (c : Corpus) (d : ℚ) (n : ℕ) (σ : ℕ → ℕ)
    (hwf : WellFormed c) (hne : c ≠ []) (hn : 1 ≤ n)
    (_h0 : 0 < d) (_h1 : d < 1) :
    ∃ start visits,
      pick (keysOf c) (σ 0) = some start ∧
      walkFrom c d σ (n - 1) start = some visits ∧
      visits.length = n ∧
      (∀ v ∈ visits, v ∈ keysOf c) ∧
      (∀ key : String, visits.count key ≤ n) ∧
      PageRank.sample_pagerank c d n σ =
        some ((keysOf c).map fun key => (key, (visits.count key : ℚ) / n)) ∧
      ((((keysOf c).map fun key => (key, (visits.count key : ℚ) / n)).map
        Prod.snd).sum = 1) := by
  have hkne : keysOf c ≠ [] := by
    intro h
    exact hne (List.map_eq_nil_iff.mp h)
  obtain ⟨start, hstart, hstartmem⟩ := pick_mem (keysOf c) (σ 0) hkne
  obtain ⟨visits, hwalk, hlen, hall⟩ := walkFrom_spec c d σ hkne (n - 1) start hstartmem
  rw [Nat.sub_add_cancel hn] at hlen
  have hn0 : ((n : ℚ)) ≠ 0 := Nat.cast_ne_zero.mpr (Nat.one_le_iff_ne_zero.mp hn)
  refine ⟨start, visits, hstart, hwalk, hlen, hall, ?_, ?_, ?_⟩
  · intro key
    calc visits.count key ≤ visits.length := List.count_le_length _ _
      _ = n := hlen
  · simp only [sample_pagerank, hstart, hwalk, Option.some_bind, bind, pure,
      Option.bind_some]
  · rw [snd_map_self, list_sum_div, sum_counts (keysOf c) hwf.1 visits hall,
      hlen, div_self hn0]

/-! ### Termination of the iteration: the update contracts ℓ1 distances -/

theorem contribSum_eq_finset (c : Corpus) (prev : String → ℚ) (page : String) :
    contribSum c prev page =
      ((keysOf c).toFinset.erase page).sum (contribution c prev page) := by
  rw [contribSum,
    ← List.sum_toFinset _ ((keysOf c).nodup_dedup.filter _),
    toFinset_dedup_filter_ne]

theorem contribution_sub (c : Corpus) (f g : String → ℚ) (page parent : String) :
    contribution c f page parent - contribution c g page parent =
      if page ∈ linksOf c parent
      then (f parent - g parent) / (linksOf c parent).length else 0 := by
  unfold contribution
  split_ifs with h1 h2
  · rw [div_sub_div_same]
  · exact sub_self _
  · exact sub_self _

theorem abs_nextVal_sub (c : Corpus) (d : ℚ) (hd : 0 ≤ d) (f g : String → ℚ)
    (page : String) :
    |nextVal c d f page - nextVal c d g page| ≤
      d * (((keysOf c).toFinset.erase page).sum fun i =>
        if page ∈ linksOf c i
        then |f i - g i| / (linksOf c i).length else 0) := by
  have h1 : nextVal c d f page - nextVal c d g page =
      d * (((keysOf c).toFinset.erase page).sum fun i =>
        contribution c f page i - contribution c g page i) := by
    rw [nextVal, nextVal, contribSum_eq_finset, contribSum_eq_finset,
      Finset.sum_sub_distrib]
    ring
  rw [h1, abs_mul, abs_of_nonneg hd]
  refine mul_le_mul_of_nonneg_left ?_ hd
  refine le_trans (Finset.abs_sum_le_sum_abs _ _) (Finset.sum_le_sum ?_)
  intro i _
  rw [contribution_sub]
  split_ifs with h
  · rw [abs_div, abs_of_nonneg (by positivity : (0:ℚ) ≤ (linksOf c i).length)]
  · simp

theorem links_indicator_sum_le (c : Corpus) (i : String) (x : ℚ) (hx : 0 ≤ x) :
    ((keysOf c).toFinset.sum fun p =>
      if p ∈ linksOf c i then x / (linksOf c i).length else 0) ≤ x := by
  simp only [← List.mem_toFinset]
  rw [Finset.sum_ite_mem, Finset.sum_const, nsmul_eq_mul]
  rcases Nat.eq_zero_or_pos (linksOf c i).length with hL | hL
  · rw [hL]
    simp [hx]
  · have hL0 : ((linksOf c i).length : ℚ) ≠ 0 := by positivity
    have hcard : ((((keysOf c).toFinset ∩ (linksOf c i).toFinset).card : ℚ)) ≤
        ((linksOf c i).length : ℚ) := by
      have h1 : ((keysOf c).toFinset ∩ (linksOf c i).toFinset).card ≤
          (linksOf c i).toFinset.card :=
        Finset.card_le_card Finset.inter_subset_right
      exact_mod_cast le_trans h1 (linksOf c i).toFinset_card_le
    calc (((keysOf c).toFinset ∩ (linksOf c i).toFinset).card : ℚ) *
          (x / (linksOf c i).length)
        ≤ ((linksOf c i).length : ℚ) * (x / (linksOf c i).length) :=
          mul_le_mul_of_nonneg_right hcard (by positivity)
      _ = x := by
          rw [mul_comm, div_mul_cancel₀ _ hL0]

theorem l1_contraction (c : Corpus) (d : ℚ) (hd : 0 ≤ d) (f g : String → ℚ) :
    ((keysOf c).toFinset.sum fun p => |nextVal c d f p - nextVal c d g p|) ≤
      d * ((keysOf c).toFinset.sum fun i => |f i - g i|) := by
  have hterm : ∀ p i : String,
      (0:ℚ) ≤ if p ∈ linksOf c i then |f i - g i| / (linksOf c i).length else 0 := by
    intro p i
    split_ifs
    · positivity
    · exact le_refl 0
  calc ((keysOf c).toFinset.sum fun p => |nextVal c d f p - nextVal c d g p|)
      ≤ (keysOf c).toFinset.sum fun p =>
          d * (((keysOf c).toFinset.erase p).sum fun i =>
            if p ∈ linksOf c i then |f i - g i| / (linksOf c i).length else 0) :=
        Finset.sum_le_sum fun p _ => abs_nextVal_sub c d hd f g p
    _ ≤ (keysOf c).toFinset.sum fun p =>
          d * ((keysOf c).toFinset.sum fun i =>
            if p ∈ linksOf c i then |f i - g i| / (linksOf c i).length else 0) :=
        Finset.sum_le_sum fun p _ => mul_le_mul_of_nonneg_left
          (Finset.sum_le_sum_of_subset_of_nonneg (Finset.erase_subset _ _)
            fun i _ _ => hterm p i) hd
    _ = d * ((keysOf c).toFinset.sum fun p =>
          (keysOf c).toFinset.sum fun i =>
            if p ∈ linksOf c i then |f i - g i| / (linksOf c i).length else 0) := by
        rw [Finset.mul_sum]
    _ = d * ((keysOf c).toFinset.sum fun i =>
          (keysOf c).toFinset.sum fun p =>
            if p ∈ linksOf c i then |f i - g i| / (linksOf c i).length else 0) := by
        rw [Finset.sum_comm]
    _ ≤ d * ((keysOf c).toFinset.sum fun i => |f i - g i|) :=
        mul_le_mul_of_nonneg_left
          (Finset.sum_le_sum fun i _ =>
            links_indicator_sum_le c i |f i - g i| (abs_nonneg _)) hd

/-- The distribution after `k` full passes of the iteration. -/
def iterState (c : Corpus) (d : ℚ) (k : ℕ) : List (String × ℚ) :=
  (nextDist c d)^[k] (initDist c)

/-- The ℓ1 distance between passes `k` and `k+1`, over the corpus keys. -/
def passGap (c : Corpus) (d : ℚ) (k : ℕ) : ℚ :=
  (keysOf c).toFinset.sum fun p =>
    |distLookup (iterState c d k) p - distLookup (iterState c d (k + 1)) p|

theorem iterState_succ (c : Corpus) (d : ℚ) (k : ℕ) :
    iterState c d (k + 1) = nextDist c d (iterState c d k) :=
  Function.iterate_succ_apply' _ _ _

theorem distLookup_nextDist (c : Corpus) (d : ℚ) (r : List (String × ℚ))
    {p : String} (hp : p ∈ keysOf c) :
    distLookup (nextDist c d r) p = nextVal c d (distLookup r) p := by
  rw [nextDist, distLookup, lookup_map_self _ _ hp]
  rfl

theorem passGap_nonneg (c : Corpus) (d : ℚ) (k : ℕ) : 0 ≤ passGap c d k :=
  Finset.sum_nonneg fun _ _ => abs_nonneg _

theorem passGap_succ_le (c : Corpus) (d : ℚ) (hd : 0 ≤ d) (k : ℕ) :
    passGap c d (k + 1) ≤ d * passGap c d k := by
  have hrw : passGap c d (k + 1) =
      (keysOf c).toFinset.sum fun p =>
        |nextVal c d (distLookup (iterState c d k)) p -
          nextVal c d (distLookup (iterState c d (k + 1))) p| := by
    refine Finset.sum_congr rfl fun p hp => ?_
    have hpk : p ∈ keysOf c := List.mem_toFinset.mp hp
    rw [iterState_succ c d (k + 1), iterState_succ c d k,
      distLookup_nextDist c d _ hpk, distLookup_nextDist c d _ hpk,
      ← iterState_succ c d k]
  rw [hrw]
  exact l1_contraction c d hd _ _

theorem passGap_le_pow (c : Corpus) (d : ℚ) (hd : 0 ≤ d) (k : ℕ) :
    passGap c d k ≤ d ^ k * passGap c d 0 := by
  induction k with
  | zero => simp
  | succ k ih =>
    calc passGap c d (k + 1) ≤ d * passGap c d k := passGap_succ_le c d hd k
      _ ≤ d * (d ^ k * passGap c d 0) := mul_le_mul_of_nonneg_left ih hd
      _ = d ^ (k + 1) * passGap c d 0 := by ring

theorem exists_passGap_small (c : Corpus) (d : ℚ) (h0 : 0 < d) (h1 : d < 1) :
    ∃ k, passGap c d k ≤ 1 / 1000 := by
  by_cases hP : passGap c d 0 ≤ 1 / 1000
  · exact ⟨0, hP⟩
  · push_neg at hP
    have hPpos : 0 < passGap c d 0 := lt_trans (by norm_num) hP
    obtain ⟨k, hk⟩ := exists_pow_lt_of_lt_one
      (div_pos (by norm_num : (0:ℚ) < 1 / 1000) hPpos) h1
    refine ⟨k, le_trans (passGap_le_pow c d (le_of_lt h0) k) ?_⟩
    exact le_of_lt ((lt_div_iff₀ hPpos).mp hk)

theorem convergedAt_eq_true_iff (c : Corpus) (r s : List (String × ℚ)) :
    convergedAt c r s = true ↔
      ∀ p ∈ keysOf c, |distLookup r p - distLookup s p| ≤ 1 / 1000 := by
  simp [convergedAt, List.all_eq_true]

theorem converged_of_passGap (c : Corpus) (d : ℚ) (k : ℕ)
    (hgap : passGap c d k ≤ 1 / 1000) :
    convergedAt c (iterState c d k) (iterState c d (k + 1)) = true := by
  rw [convergedAt_eq_true_iff]
  intro p hp
  refine le_trans ?_ hgap
  unfold passGap
  exact Finset.single_le_sum
    (f := fun q => |distLookup (iterState c d k) q -
      distLookup (iterState c d (k + 1)) q|)
    (fun q _ => abs_nonneg _) (List.mem_toFinset.mpr hp)

theorem iterAux_isSome_of_conv (c : Corpus) (d : ℚ) :
    ∀ (fuel : ℕ), ∀ (j : ℕ) (r : List (String × ℚ)), j < fuel →
      convergedAt c ((nextDist c d)^[j] r)
        (nextDist c d ((nextDist c d)^[j] r)) = true →
      ∃ out, iterAux c d fuel r = some out := by
  intro fuel
  induction fuel with
  | zero => intro j r hj _; exact absurd hj (Nat.not_lt_zero j)
  | succ fuel ih =>
    intro j r _hj hconv
    rw [iterAux]
    by_cases hc : convergedAt c r (nextDist c d r)
    · rw [if_pos hc]
      exact ⟨_, rfl⟩
    · rw [if_neg hc]
      cases j with
      | zero =>
        rw [Function.iterate_zero_apply] at hconv
        exact absurd hconv hc
      | succ j =>
        refine ih j (nextDist c d r) (by omega) ?_
        rw [← Function.iterate_succ_apply]
        exact hconv

/-- Claim C9: for every non-empty corpus and every damping factor in (0,1), the
iteration terminates: some finite fuel (pass count) makes `iterate_pagerank`
return, the loop stopping at the first pass whose maximum per-page change is
at most 0.001.  The update map contracts ℓ1 distances between successive
passes by the factor `d`, so the gap eventually drops below the threshold. -/
theorem iterate_pagerank_terminates (c : Corpus) (d : ℚ)
    (_hne : c ≠ []) (h0 : 0 < d) (h1 : d < 1) :
    ∃ fuel r, PageRank.iterate_pagerank c d fuel = some r := by
  obtain ⟨k, hk⟩ := exists_passGap_small c d h0 h1
  have hconv := converged_of_passGap c d k hk
  rw [iterState_succ c d k] at hconv
  obtain ⟨out, hout⟩ :=
    iterAux_isSome_of_conv c d (k + 1) k (initDist c) (Nat.lt_succ_self k) hconv
  exact ⟨k + 1, out, hout⟩

/-- Witness for C9 at the singleton dangling corpus and `d = 0.85`. -/
theorem iterate_pagerank_terminates_witness :
    ∃ fuel r, PageRank.iterate_pagerank [("A", [])] (17 / 20) fuel = some r :=
  iterate_pagerank_terminates [("A", [])] (17 / 20) (by simp)
    (by norm_num) (by norm_num)

/-! ### Witnesses: the hypothesised theorems hold at concrete inputs -/

/-- Witness for C5 on the 2-cycle corpus at `page = "A"`, `d = 1/2`. -/
theorem transition_model_sum_one_witness :
    ∃ pages r,
      PageRank.lookup "A" [("A", ["B"]), ("B", ["A"])] = some pages ∧
      PageRank.transition_model [("A", ["B"]), ("B", ["A"])] "A" (1 / 2) =
        some r ∧
      (r.map Prod.snd).sum = 1 ∧
      (pages.length ≠ 0 → ∀ q ∈ PageRank.keysOf [("A", ["B"]), ("B", ["A"])],
        PageRank.lookup q r = some ((1 - 1 / 2) /
          ((PageRank.keysOf [("A", ["B"]), ("B", ["A"])]).length : ℚ) +
          if q ∈ pages then (1 : ℚ) / 2 / (pages.length : ℚ) else 0)) :=
  transition_model_sum_one_and_formula [("A", ["B"]), ("B", ["A"])] "A" (1 / 2)
    (by decide) (by decide) (by norm_num) (by norm_num)

/-- Witness for C6 on the singleton dangling corpus at `d = 1/2`. -/
theorem transition_model_dangling_witness :
    ∃ r, PageRank.transition_model [("A", [])] "A" (1 / 2) = some r ∧
      (∀ q ∈ PageRank.keysOf [("A", ([] : List String))],
        PageRank.lookup q r = some ((1 : ℚ) /
          ((PageRank.keysOf [("A", ([] : List String))]).length : ℚ))) ∧
      ∀ pr ∈ r, pr.2 =
        1 / ((PageRank.keysOf [("A", ([] : List String))]).length : ℚ) :=
  transition_model_dangling_uniform [("A", [])] "A" (1 / 2) (by decide)
    (by decide) (by norm_num) (by norm_num)

/-- Witness for C7 on the singleton corpus, `d = 1/2`, `n = 2`, zero oracle. -/
theorem sample_pagerank_counts_witness :
    ∃ start visits,
      PageRank.pick (PageRank.keysOf [("A", ([] : List String))])
        ((fun _ => 0) 0) = some start ∧
      PageRank.walkFrom [("A", [])] (1 / 2) (fun _ => 0) (2 - 1) start =
        some visits ∧
      visits.length = 2 ∧
      (∀ v ∈ visits, v ∈ PageRank.keysOf [("A", ([] : List String))]) ∧
      (∀ key : String, visits.count key ≤ 2) ∧
      PageRank.sample_pagerank [("A", [])] (1 / 2) 2 (fun _ => 0) =
        some ((PageRank.keysOf [("A", ([] : List String))]).map fun key =>
          (key, (visits.count key : ℚ) / ((2 : ℕ) : ℚ))) ∧
      ((((PageRank.keysOf [("A", ([] : List String))]).map fun key =>
        (key, (visits.count key : ℚ) / ((2 : ℕ) : ℚ))).map Prod.snd).sum = 1) :=
  sample_pagerank_counts [("A", [])] (1 / 2) 2 (fun _ => 0) (by decide)
    (by simp) (by norm_num) (by norm_num) (by norm_num)

theorem sample_singleton_eval :
    PageRank.sample_pagerank [("A", [])] (1 / 2) 1 (fun _ => 0) =
      some [("A", 1)] := by
  have hwalk := walkFrom_singleton (1 / 2) (fun _ => 0) 0
  simp only [sample_pagerank]
  have hstart : pick (keysOf [("A", ([] : List String))]) ((fun _ => 0) 0) =
      some "A" := by
    simp [pick, keysOf]
  rw [hstart]
  simp only [Option.some_bind, bind, pure, hwalk, Option.bind_some]
  simp [keysOf]

theorem iterate_singleton_half_eval :
    PageRank.iterate_pagerank [("A", [])] (1 / 2) 2 = some [("A", 1 / 2)] := by
  show iterAux _ _ 2 _ = _
  simp [nextDist, nextVal, contribSum, contribution, keysOf, linksOf,
    lookup, distLookup, initDist, convergedAt, iterAux]
  norm_num

/-- Witness for C10: all three functions applied on the singleton corpus. -/
theorem outputs_keyed_witness :
    PageRank.keysOf [("A", (1 : ℚ))] =
      PageRank.keysOf [("A", ([] : List String))] ∧
    PageRank.keysOf [("A", (1 : ℚ))] =
      PageRank.keysOf [("A", ([] : List String))] ∧
    PageRank.keysOf [("A", (1 : ℚ) / 2)] =
      PageRank.keysOf [("A", ([] : List String))] :=
  ⟨outputs_keyed_by_corpus.1 _ "A" (1 / 2) _ (transition_model_singleton (1 / 2)),
   outputs_keyed_by_corpus.2.1 _ (1 / 2) 1 (fun _ => 0) _ sample_singleton_eval,
   outputs_keyed_by_corpus.2.2 _ (1 / 2) 2 _ iterate_singleton_half_eval⟩

/-- Witness for C2's sampling clause at `n = 3` with the zero oracle. -/
theorem singleton_sample_witness :
    PageRank.sample_pagerank [("A", [])] (17 / 20) 3 (fun _ => 0) =
      some [("A", 1)] :=
  singleton_corpus_iterate_not_one.2.1 (fun _ => 0) 3 (by norm_num)

end PageRank
